import Mathlib

/-!
Formal model of the PDF table-reconstruction core of a municipal
budget-report ETL system.  Positioned text tokens are clustered into
rows and columns, reassembled into a dense grid, cleaned, coerced to
numbers, validated against subtotal tolerances, and written out by an
extract-transform-validate-load pipeline.  Token coordinates and the integer
tolerances are modelled as integers, numeric cell values and currency
tolerances as exact rationals; strings are modelled with Lean's
`String`/`Char` operations mirroring the Python string and regex
operations used by the source.
-/

namespace PBD

/-- A word in the PDF with associated text and bounding box
(mirrors the pydantic `Word` model in `etl/utils/pdf.py`). -/
structure Word where
  x0 : ℤ
  x1 : ℤ
  top : ℤ
  bottom : ℤ
  text : String
deriving DecidableEq

/-- Character constants used by the cleaning and formatting code. -/
def commaChar : Char := Char.ofNat 44

/-- The period character. -/
def dotChar : Char := Char.ofNat 46

/-- The dollar-sign character. -/
def dollarChar : Char := Char.ofNat 36

/-- The opening-parenthesis character. -/
def lparenChar : Char := Char.ofNat 40

/-- The closing-parenthesis character. -/
def rparenChar : Char := Char.ofNat 41

/-- The minus-sign character. -/
def minusChar : Char := Char.ofNat 45

/-- The percent character. -/
def percentChar : Char := Char.ofNat 37

/-- Whether the second character list is a prefix of the first. -/
def listStartsWith : List Char → List Char → Bool
  | _, [] => true
  | [], _ :: _ => false
  | c :: cs, p :: ps => p = c && listStartsWith cs ps

/-- Whether string `s` starts with `p` (models Python's `startswith`). -/
def strStarts (s p : String) : Bool :=
  listStartsWith s.toList p.toList

/-- Strip leading and trailing whitespace (models Python's `strip()`). -/
def trimChars (s : String) : String :=
  ⟨((s.toList.dropWhile Char.isWhitespace).reverse.dropWhile
      Char.isWhitespace).reverse⟩

/-- Insert a word into a list sorted (stably) by the rational key `d`. -/
def insertLe (d : Word → ℤ) (w : Word) : List Word → List Word
  | [] => [w]
  | x :: xs => if d w ≤ d x then w :: x :: xs else x :: insertLe d w xs

/-- Stable insertion sort of words by the rational key `d`
(models Python's stable `sorted`). -/
def sortStableBy (d : Word → ℤ) (ws : List Word) : List Word :=
  ws.foldr (insertLe d) []

/-- Insert a key into a sorted list of keys. -/
def insertKey (q : ℤ) : List ℤ → List ℤ
  | [] => [q]
  | x :: xs => if q ≤ x then q :: x :: xs else x :: insertKey q xs

/-- Sort a list of keys ascending (models `np.unique`'s sorting). -/
def sortKeys (qs : List ℤ) : List ℤ :=
  qs.foldr insertKey []

/-- The distinct key values of the input words, ascending
(models `np.unique([getattr(w, key) for w in words])`). -/
def uniqueSortedKeys (keyf : Word → ℤ) (ws : List Word) : List ℤ :=
  sortKeys ((ws.map keyf).dedup)

/-- The group of words whose half-open interval
`[key - lower_tol, key + upper_tol)` contains the query point `v`,
sorted by `x0` (models the interval-tree point query `tree[y]` followed
by `sorted(objs, key=attrgetter("x"))` in `fuzzy_groupby`). -/
def groupAt (keyf : Word → ℤ) (ws : List Word) (lt ut v : ℤ) : List Word :=
  sortStableBy (fun w => w.x0)
    (ws.filter (fun w => decide (keyf w - lt ≤ v) && decide (v < keyf w + ut)))

/-- One iteration of the grouping loop: emit the group at query point
`v` unless an equal word list is already present
(`if values not in result.values()`). -/
def fgStep (ws : List Word) (lt ut : ℤ) (keyf : Word → ℤ)
    (acc : List (ℤ × List Word)) (v : ℤ) : List (ℤ × List Word) :=
  let g := groupAt keyf ws lt ut v
  if acc.any (fun p => p.2 == g) then acc else acc ++ [(v, g)]

/-- Group words into lines with a specified tolerance: for each distinct
key value (ascending), collect the words whose tolerance interval
contains it, skipping groups whose word list is already present
(mirrors `fuzzy_groupby` in `etl/utils/pdf.py`). -/
def fuzzy_groupby (ws : List Word) (lt ut : ℤ) (keyf : Word → ℤ) :
    List (ℤ × List Word) :=
  (uniqueSortedKeys keyf ws).foldl (fgStep ws lt ut keyf) []

/-- Merge horizontally adjacent words of one row into phrases: scanning
right to left, a word is merged with its left neighbour when the gap
`this.x0 - prev.x1` is below `tol`; the merged word keeps the left
word's `x0`/`top`/`bottom`, takes the right word's `x1`, and joins the
texts with a single space (mirrors the phrase loop in
`words_to_table`). -/
def mergePhrases (tol : ℤ) : List Word → List Word
  | [] => []
  | w :: rest =>
    match mergePhrases tol rest with
    | [] => [w]
    | v :: vs =>
      if v.x0 - w.x1 < tol then
        ⟨w.x0, v.x1, w.top, w.bottom, w.text ++ " " ++ v.text⟩ :: vs
      else
        w :: v :: vs

/-- Remove every space character from a string
(models Python's `text.replace(" ", "")`). -/
def removeSpaceChars (s : String) : String :=
  ⟨s.toList.filter (fun c => ¬ c = Char.ofNat 32)⟩

/-- Whether the string starts with one of the alternatives of the
numeric regex `\(?(\d+(?:\.\d+)?%|\d{1,3}(?:,\d{3})*|-|N\/A)\)?`
ignoring the optional parenthesis: a digit, a hyphen, or `N/A`. -/
def startsNumericAlt (s : String) : Bool :=
  match s.toList with
  | [] => false
  | c :: _ => c.isDigit || c = minusChar || strStarts s "N/A"

/-- Whether `re.match` of the numeric regex succeeds on the text with
spaces removed: since `re.match` only anchors at the start, this holds
iff an alternative matches directly or after one opening parenthesis. -/
def matchesNumeric (s : String) : Bool :=
  let t := removeSpaceChars s
  startsNumericAlt t ||
    (strStarts t "(" && startsNumericAlt (⟨t.toList.drop 1⟩ : String))

/-- Whether the first character of the text is alphabetic, which is how
`words_to_table` classifies a row as a header row
(`first[0].strip().isalpha()`). -/
def isAlphaLeading (s : String) : Bool :=
  match s.toList with
  | [] => false
  | c :: _ => c.isAlpha

/-- The words a single merged row contributes to the data pool of
`words_to_table`: a row whose first token starts with `*` contributes
nothing, a header-led row contributes its tokens matching the numeric
regex, any other row contributes all of its tokens. -/
def rowWordContribution (m : List Word) : List Word :=
  match m with
  | [] => []
  | first :: _ =>
    if strStarts first.text "*" then []
    else if isAlphaLeading first.text then
      m.filter (fun w => matchesNumeric w.text)
    else m

/-- The headers a single merged row contributes: its first token, when
the row is header-led and not a footnote row. -/
def rowHeaderContribution (m : List Word) : List Word :=
  match m with
  | [] => []
  | first :: _ =>
    if strStarts first.text "*" then []
    else if isAlphaLeading first.text then [first]
    else []

/-- The header/word-splitting loop of `words_to_table`: iterate over the
row groups in order, merge each row into phrases, skip rows whose first
token starts with `*`, collect header tokens and data-pool tokens. -/
def collectRows (ttx : ℤ) (rows : List (List Word)) :
    List Word × List Word :=
  rows.foldl
    (fun acc row =>
      let m := mergePhrases ttx row
      (acc.1 ++ rowHeaderContribution m, acc.2 ++ rowWordContribution m))
    ([], [])

/-- The first phase of `words_to_table`: group the words into rows by
`bottom` with tolerance `tty`, then split row headers from the data
pool with phrase tolerance `ttx`.  The second component is the list of
words that is subsequently clustered into columns. -/
def words_to_table_words (ws : List Word) (tty ttx : ℤ) :
    List Word × List Word :=
  collectRows ttx ((fuzzy_groupby ws tty tty (fun w => w.bottom)).map Prod.snd)

/-- Look up a key in an association list of columns
(models `columns[loc]` on the Python dict). -/
def alistGet (cols : List (ℤ × List Word)) (k : ℤ) : Option (List Word) :=
  (cols.find? (fun p => p.1 == k)).map Prod.snd

/-- Replace the value stored at a key, keeping the dict order
(models `columns[loc] = value` on an existing key). -/
def alistSet (cols : List (ℤ × List Word)) (k : ℤ) (v : List Word) :
    List (ℤ × List Word) :=
  cols.map (fun p => if p.1 == k then (k, v) else p)

/-- Delete a key (models `del columns[loc]`). -/
def alistErase (cols : List (ℤ × List Word)) (k : ℤ) :
    List (ℤ × List Word) :=
  cols.filter (fun p => ¬ p.1 == k)

/-- The body of the `remove_close_columns` loop over the pre-computed
sorted key list: for each adjacent pair of original locations, when the
left key is still present and the keys are closer than `sep`, append
the smaller column's words to the larger column's words and delete the
smaller column's key; on equal sizes the left column absorbs the right
one. -/
def rccGo (sep : ℤ) : List (ℤ × List Word) → List ℤ → List (ℤ × List Word)
  | cols, l1 :: l2 :: rest =>
    match alistGet cols l1 with
    | none => rccGo sep cols (l2 :: rest)
    | some v1 =>
      if l2 - l1 < sep then
        match alistGet cols l2 with
        | none => rccGo sep cols (l2 :: rest)
        | some v2 =>
          if v1.length < v2.length then
            rccGo sep (alistErase (alistSet cols l2 (v2 ++ v1)) l1) (l2 :: rest)
          else
            rccGo sep (alistErase (alistSet cols l1 (v1 ++ v2)) l2) (l2 :: rest)
      else rccGo sep cols (l2 :: rest)
  | cols, _ => cols

/-- Remove columns that are closer than a specified distance
(mirrors `remove_close_columns` in `etl/utils/pdf.py`). -/
def remove_close_columns (cols : List (ℤ × List Word)) (sep : ℤ) :
    List (ℤ × List Word) :=
  rccGo sep cols (sortKeys (cols.map Prod.fst))

/-- The header closest to the word by `|header.top - word.top|`, with
ties resolved toward the earlier header in the list (models
`headers[np.argmin(np.abs(header_tops - word.top))]`, `np.argmin`
returning the first index attaining the minimum); `pickCloser` compares
one header against the best of the rest. -/
def pickCloser (w a : Word) : Option Word → Word
  | none => a
  | some h2 => if |h2.top - w.top| < |a.top - w.top| then h2 else a

/-- The recursion of the closest-header search. -/
def closestHeader (w : Word) : List Word → Option Word
  | [] => none
  | h :: hs => some (pickCloser w h (closestHeader w hs))

/-- The candidate words of a column for a given row header: the words
within `tol` of the header by `|word.top - h.top|`, ordered by
increasing distance (models masking distances above `match_tol` with
NaN followed by `np.argsort` over the remaining distances). -/
def candSorted (col : List Word) (h : Word) (tol : ℤ) : List Word :=
  sortStableBy (fun w => |w.top - h.top|)
    (col.filter (fun w => decide (|w.top - h.top| ≤ tol)))

/-- The word whose text is assigned to the cell of row header `h` in the
given column: the closest candidate within `tol` for which `h` is also
the closest row header (mirrors the inner loop of `create_data_table`
in `etl/utils/pdf.py`). -/
def cellWord (headers col : List Word) (tol : ℤ) (h : Word) : Option Word :=
  (candSorted col h tol).find? (fun w => closestHeader w headers == some h)

/-- The text placed in the cell of row header `h` for the given column:
the matched word's text, or the empty default. -/
def cellText (headers col : List Word) (tol : ℤ) (h : Word) : String :=
  match cellWord headers col tol h with
  | some w => w.text
  | none => ""

/-- Based on row headers and column data, create the data table: one row
per header, column 0 holding the header text and column `c + 1` holding
the cell text for the `c`-th word column (mirrors `create_data_table`
in `etl/utils/pdf.py`). -/
def create_data_table (headers : List Word) (columns : List (List Word))
    (tol : ℤ) : List (List String) :=
  headers.map (fun h => h.text :: columns.map (fun col => cellText headers col tol h))

/-- The character for the decimal digit `d`. -/
def digitChar (d : ℕ) : Char := Char.ofNat (48 + d)

/-- The decimal digits of a natural number, least significant first. -/
def natToDigitsRev (n : ℕ) : List Char :=
  if _h : n < 10 then [digitChar n]
  else digitChar (n % 10) :: natToDigitsRev (n / 10)
decreasing_by exact Nat.div_lt_self (by omega) (by omega)

/-- The decimal digits of a natural number, most significant first. -/
def natToDigits (n : ℕ) : List Char :=
  (natToDigitsRev n).reverse

/-- Read a list of decimal digit characters as a natural number. -/
def digitsToNat (cs : List Char) : ℕ :=
  cs.foldl (fun acc c => 10 * acc + (c.toNat - 48)) 0

/-- Pad a digit list with leading zeros to length `k`. -/
def padZeros (k : ℕ) (cs : List Char) : List Char :=
  List.replicate (k - cs.length) (digitChar 0) ++ cs

/-- Insert a comma after every three characters, acting on a reversed
digit list (so commas separate thousands when read forwards). -/
def group3Rev (cs : List Char) : List Char :=
  if _h : cs.length ≤ 3 then cs
  else cs.take 3 ++ commaChar :: group3Rev (cs.drop 3)
termination_by cs.length
decreasing_by simp only [List.length_drop]; omega

/-- Insert thousands separators into a (forward) digit list. -/
def addCommas (cs : List Char) : List Char :=
  (group3Rev cs.reverse).reverse

/-- Modelled from the spec: format the decimal value `n / 10^k` in
currency style with a dollar sign, thousands separators, and `k`
fractional digits, as in the spec's example string. -/
def formatCurrency (n k : ℕ) : String :=
  ⟨dollarChar ::
    (addCommas (natToDigits (n / 10 ^ k)) ++
      if k = 0 then []
      else dotChar :: padZeros k (natToDigits (n % 10 ^ k)))⟩

/-- Modelled from the spec: format the decimal value `n / 10^k` in
accounting style for negatives, wrapping the unsigned currency digits
in parentheses, as in the spec's example string. -/
def formatAccounting (n k : ℕ) : String :=
  ⟨lparenChar ::
    (addCommas (natToDigits (n / 10 ^ k)) ++
      (if k = 0 then []
       else dotChar :: padZeros k (natToDigits (n % 10 ^ k))) ++
      [rparenChar])⟩

/-- Split a character list at a single decimal point: `none` when more
than one point occurs, otherwise the characters before and after it. -/
def splitDot : List Char → Option (List Char × List Char)
  | [] => some ([], [])
  | c :: cs =>
    if c = dotChar then
      if cs.contains dotChar then none else some ([], cs)
    else
      match splitDot cs with
      | none => none
      | some (a, b) => some (c :: a, b)

/-- Interpret the two sides of the decimal point as a rational. -/
def parseParts : Option (List Char × List Char) → Option ℚ
  | none => none
  | some (a, b) =>
    if a ++ b = [] then none
    else if (a ++ b).all Char.isDigit then
      some ((digitsToNat a : ℚ) + (digitsToNat b : ℚ) / 10 ^ b.length)
    else none

/-- Parse an unsigned decimal numeral `digits[.digits]` as a rational;
`none` when the characters are not such a numeral. -/
def parseDecimalChars (cs : List Char) : Option ℚ :=
  parseParts (splitDot cs)

/-- Parse an optional leading minus sign followed by an unsigned
decimal numeral. -/
def parseSigned : List Char → Option ℚ
  | [] => none
  | c :: cs =>
    if c = minusChar then (parseDecimalChars cs).map (fun q => -q)
    else parseDecimalChars (c :: cs)

/-- Parse a signed decimal numeral, as `pd.to_numeric` does for the
plain decimal strings produced by the cleaning passes; strings that are
not signed decimal numerals yield `none` (NaN under `errors="coerce"`). -/
def to_numeric (s : String) : Option ℚ :=
  parseSigned s.toList

/-- Remove every dollar sign, comma and closing parenthesis
(models the Series replacement of the regex class `[\$,)]` by the empty
string in `convert_to_floats`). -/
def stripCurrencyChars (s : String) : String :=
  ⟨s.toList.filter
    (fun c => ¬ (c = dollarChar ∨ c = commaChar ∨ c = rparenChar))⟩

/-- Replace every opening parenthesis by a minus sign (models the Series
replacement of `[(]` by `-` in `convert_to_floats`). -/
def parenToMinus (s : String) : String :=
  ⟨s.toList.map (fun c => if c = lparenChar then minusChar else c)⟩

/-- The per-cell semantics of `convert_to_floats` in
`etl/utils/transformations.py`: strip `$`, `,`, `)`, turn `(` into `-`,
then coerce with `pd.to_numeric`. -/
def convert_cell (s : String) : Option ℚ :=
  to_numeric (parenToMinus (stripCurrencyChars s))

/-- A cell of an extracted table: a string, a coerced number, or the
NaN missing sentinel. -/
inductive Cell where
  | str (s : String)
  | num (q : ℚ)
  | nan
deriving DecidableEq

/-- A data frame, modelled as its rows together with its fixed column
count and the set of columns whose dtype has become numeric (after
`pd.to_numeric`); the Pandas string accessor `.str` raises on a column
of numeric dtype. -/
structure Frame where
  ncols : ℕ
  rows : List (List Cell)
  numericCols : List ℕ
deriving DecidableEq

/-- Whether a cell holds a string. -/
def isStrCell : Cell → Bool
  | .str _ => true
  | _ => false

/-- Whether a cell is null (`isnull` in Pandas). -/
def isNullCell : Cell → Bool
  | .nan => true
  | _ => false

/-- The data columns `df.columns[1:]` of a frame. -/
def dataCols (f : Frame) : List ℕ :=
  List.range' 1 (f.ncols - 1)

/-- Apply a cell transform to the cells in the selected columns. -/
def mapColsAt (sel : List ℕ) (g : Cell → Cell) (rows : List (List Cell)) :
    List (List Cell) :=
  rows.map (fun r => r.enum.map (fun p => if sel.contains p.1 then g p.2 else p.2))

/-- The element-wise behaviour of a `.str` method on an object column:
strings are transformed, any other value becomes NaN. -/
def strAccessorCell (g : String → String) : Cell → Cell
  | .str s => .str (g s)
  | _ => .nan

/-- Apply a `.str` transformation to all data columns, raising when any
of them has numeric dtype (as the Pandas `.str` accessor does). -/
def strAccessorDataCols (g : String → String) (f : Frame) :
    Except String Frame :=
  if (dataCols f).any (fun j => f.numericCols.contains j) then
    .error "str accessor on numeric column"
  else
    .ok { f with rows := mapColsAt (dataCols f) (strAccessorCell g) f.rows }

/-- Remove any lines starting with an asterisk (mirrors
`remove_footnotes` in `etl/utils/transformations.py`); raises when
column 0 has numeric dtype or contains non-strings (boolean masking
with NA). -/
def remove_footnotes (f : Frame) : Except String Frame :=
  if f.numericCols.contains 0 then .error "str accessor on numeric column"
  else if f.rows.any (fun r => ¬ isStrCell (r.getD 0 .nan)) then
    .error "cannot mask with NA"
  else
    .ok { f with rows := f.rows.filter (fun r =>
      match r.getD 0 Cell.nan with
      | .str s => ¬ strStarts (trimChars s) "*"
      | _ => true) }

/-- The character class `[a-zA-Z0-9%,.]` of the duplicated-character
regexes in `fix_duplicated_chars`. -/
def classChar (c : Char) : Bool :=
  c.isAlpha || c.isDigit || c = percentChar || c = commaChar || c = dotChar

/-- Delete every maximal run of two or more identical class characters
(models the regex replacement `([a-zA-Z0-9%,.])\1+` by the empty
string). -/
def removeRunsPlus : List Char → List Char
  | [] => []
  | [c] => [c]
  | c :: d :: rest =>
    if classChar c ∧ d = c then
      removeRunsPlus ((d :: rest).dropWhile (fun e => e = c))
    else c :: removeRunsPlus (d :: rest)
termination_by l => l.length
decreasing_by
  · have hd : ∀ (l : List Char) (p : Char → Bool),
        (l.dropWhile p).length ≤ l.length := by
      intro l p
      induction l with
      | nil => simp [List.dropWhile]
      | cons a as ih =>
        simp only [List.dropWhile]
        split
        · exact le_trans ih (Nat.le_succ _)
        · simp
    calc ((d :: rest).dropWhile (fun e => e = c)).length
        ≤ (d :: rest).length := hd _ _
      _ < (c :: d :: rest).length := by simp
  · simp

/-- Collapse each run of two or three identical class characters to a
single one (models the regex replacement of `([a-zA-Z0-9%,.])\1{1,2}`
by `\1`, scanning left to right). -/
def collapseRuns : List Char → List Char
  | [] => []
  | c :: cs =>
    if classChar c then
      match cs with
      | [] => [c]
      | [d] => if d = c then [c] else c :: collapseRuns [d]
      | d :: e :: rest =>
        if d = c ∧ e = c then c :: collapseRuns rest
        else if d = c then c :: collapseRuns (e :: rest)
        else c :: collapseRuns (d :: e :: rest)
    else c :: collapseRuns cs

/-- Whether the second-column text qualifies its row for de-duplication:
nonempty, and empty once 2+-runs and then commas are removed. -/
def dupRowPred (r : List Cell) : Bool :=
  match r.getD 1 Cell.nan with
  | .str s =>
    ¬ s.toList = [] &&
      ((removeRunsPlus s.toList).filter (fun c => ¬ c = commaChar)) = []
  | _ => false

/-- The row-wise `.str.replace` used for de-duplication: strings have
their 2-3-runs collapsed, other values become NaN. -/
def dedupCell : Cell → Cell
  | .str s => .str ⟨collapseRuns s.toList⟩
  | _ => .nan

/-- Check for duplicated characters (mirrors `fix_duplicated_chars` in
`etl/utils/transformations.py`): rows whose column-1 text collapses to
the empty string get every cell's 2-3-runs collapsed; raises when
column 1 has numeric dtype. -/
def fix_duplicated_chars (f : Frame) : Except String Frame :=
  if f.numericCols.contains 1 then .error "str accessor on numeric column"
  else
    .ok { f with rows := f.rows.map (fun r =>
      if dupRowPred r then r.map dedupCell else r) }

/-- Strip out spaces from cells (mirrors `remove_spaces`). -/
def remove_spaces (f : Frame) : Except String Frame :=
  strAccessorDataCols (fun s => ⟨s.toList.filter (fun c => ¬ c.isWhitespace)⟩) f

/-- Replace each non-overlapping occurrence of `aa` by `a`, scanning
left to right (models Python's `str.replace` of a doubled character by
a single one). -/
def replacePairChar (a : Char) : List Char → List Char
  | [] => []
  | [c] => [c]
  | c :: d :: rest =>
    if c = a ∧ d = a then a :: replacePairChar a rest
    else c :: replacePairChar a (d :: rest)

/-- Change any duplicate parentheses to single only (mirrors
`fix_duplicate_parens`). -/
def fix_duplicate_parens (f : Frame) : Except String Frame :=
  strAccessorDataCols
    (fun s => ⟨replacePairChar rparenChar (replacePairChar lparenChar s.toList)⟩)
    f

/-- Strip trailing percent characters after stripping whitespace
(the cell transform of `fix_percentages`). -/
def rstripPercents (s : String) : String :=
  ⟨((trimChars s).toList.reverse.dropWhile (fun c => c = percentChar)).reverse⟩

/-- Strip percent signs from the end of cell values (mirrors
`fix_percentages`). -/
def fix_percentages (f : Frame) : Except String Frame :=
  strAccessorDataCols rstripPercents f

/-- Replace an empty-string cell by NaN (`df.replace("", np.nan)`). -/
def replaceEmptyCell : Cell → Cell
  | .str s => if s.toList = [] then .nan else .str s
  | c => c

/-- Replace `N/A` and `-` cells by NaN in data columns. -/
def replaceNACell : Cell → Cell
  | .str s => if s = "N/A" ∨ s = "-" then .nan else .str s
  | c => c

/-- Fill empty or N/A values with NaN values (mirrors
`replace_missing_cells`: the whole frame for the empty string, the data
columns for `N/A` and `-`). -/
def replace_missing_cells (f : Frame) : Except String Frame :=
  .ok { f with rows := (mapColsAt (dataCols f) replaceNACell
          (f.rows.map (fun r => r.map replaceEmptyCell))) }

/-- Remove any capital letters mixed into column 1 (mirrors
`remove_extra_letters` with `col_num = 1`); raises when column 1 has
numeric dtype. -/
def remove_extra_letters (f : Frame) : Except String Frame :=
  if f.numericCols.contains 1 then .error "str accessor on numeric column"
  else
    .ok { f with rows := (mapColsAt [1]
            (strAccessorCell (fun s => ⟨s.toList.filter (fun c => ¬ c.isUpper)⟩))
            f.rows) }

/-- The cell-level action of `pd.to_numeric` with `errors="coerce"`
after the currency replacements: strings are coerced (NaN on failure),
numbers and NaN pass through. -/
def convertCellValue : Cell → Cell
  | .str s =>
    match convert_cell s with
    | some q => .num q
    | none => .nan
  | .num q => .num q
  | .nan => .nan

/-- Convert string values in currency format to floats on the data
columns (mirrors `convert_to_floats` with `usecols = df.columns[1:]`
and `errors="coerce"`); the converted columns acquire numeric dtype. -/
def convert_to_floats (f : Frame) : Except String Frame :=
  .ok { f with rows := mapColsAt (dataCols f) convertCellValue f.rows,
               numericCols := f.numericCols ++ dataCols f }

/-- Remove rows whose data columns are all null (mirrors
`remove_missing_rows` with `usecols = df.columns[1:]`). -/
def remove_missing_rows (f : Frame) : Except String Frame :=
  .ok { f with rows := f.rows.filter (fun r =>
    ¬ (dataCols f).all (fun j => isNullCell (r.getD j .nan))) }

/-- Sequencing of fallible cleaning passes: an exception raised by an
earlier pass aborts the rest of the chain. -/
def exBind (x : Except String Frame) (f : Frame → Except String Frame) :
    Except String Frame :=
  match x with
  | .error e => .error e
  | .ok a => f a

/-- The cleaner pipeline exactly as composed in
`MonthlyCollectionsReport.transform` in
`etl/collections/monthly/core.py`. -/
def monthly_transform (f : Frame) : Except String Frame :=
  exBind (exBind (exBind (exBind (exBind (exBind (exBind (exBind
    (remove_footnotes f)
    fix_duplicated_chars) remove_spaces) fix_duplicate_parens)
    fix_percentages) replace_missing_cells) remove_extra_letters)
    convert_to_floats) remove_missing_rows

/-- Wellformedness of an extracted table: at least two columns, object
dtype everywhere, rectangular rows of string cells. -/
def wfFrame (f : Frame) : Bool :=
  decide (2 ≤ f.ncols) && decide (f.numericCols = []) &&
    f.rows.all (fun r => decide (r.length = f.ncols) && r.all isStrCell)

/-- The per-column assertion of `CityTaxCollections.validate` in
`etl/collections/monthly/city_tax.py`: the signed difference between
the sum of the category totals and the reported `all_taxes` total must
be below 5 (`assert diff < 5`). -/
def city_tax_total_check (cats : List ℚ) (all_taxes : ℚ) : Bool :=
  decide (cats.sum - all_taxes < 5)

/-- The `compare_totals` helper of `CashReportRevenue.validate` in
`etl/qcmr/cash/revenue.py`: every aligned pair must satisfy
`|x - y| <= 0.401`. -/
def compare_totals (xs ys : List ℚ) : Bool :=
  (xs.zip ys).all (fun p => decide (|p.1 - p.2| ≤ (0.401 : ℚ)))

/-- An abstract ETL report pipeline: the extracted table, the transform,
and the validation predicate (models the `ETLPipeline` interface of
`etl/core.py`). -/
structure Pipeline (α : Type) where
  extracted : α
  transformFn : α → α
  validateFn : α → Bool

/-- The steps a pipeline invocation can execute. -/
inductive ETLStep where
  | extract
  | transform
  | validateData
  | load
deriving DecidableEq

/-- Convenience function to extract and then transform
(mirrors `ETLPipeline.extract_transform`). -/
def extract_transform {α : Type} (p : Pipeline α) : α :=
  p.transformFn p.extracted

/-- Convenience function to extract, transform, and load, optionally
validating the data before loading it (mirrors
`ETLPipeline.extract_transform_load`): the `assert` on the validation
result aborts the invocation before the load step runs.  Returns the
list of executed steps together with the outcome. -/
def extract_transform_load {α : Type} (p : Pipeline α) (validate : Bool) :
    List ETLStep × Except String α :=
  let data := extract_transform p
  if validate then
    if p.validateFn data then
      ([.extract, .transform, .validateData, .load], .ok data)
    else
      ([.extract, .transform, .validateData], .error "validation failed")
  else
    ([.extract, .transform, .load], .ok data)

/-- Return the fiscal year for the input calendar year (mirrors
`fiscal_from_calendar_year` in `etl/utils/misc.py`). -/
def fiscal_from_calendar_year (month_num calendar_year : ℤ) : ℤ :=
  if month_num < 7 then calendar_year else calendar_year + 1

/-- Example token for the fuzzy-grouping analysis (key 0). -/
def exW0 : Word := ⟨0, 1, 0, 1, "a"⟩

/-- Example token for the fuzzy-grouping analysis (key 15). -/
def exW1 : Word := ⟨2, 3, 15, 16, "b"⟩

/-- Example footnote token at bottom 800. -/
def exStar : Word := ⟨0, 50, 790, 800, "* Preliminary"⟩

/-- Example data token below the footnote, at bottom 900. -/
def exBelow : Word := ⟨0, 20, 890, 900, "123"⟩

/-- Example row header at top 100. -/
def exH1 : Word := ⟨0, 10, 100, 110, "h1"⟩

/-- Example row header at top 300. -/
def exH2 : Word := ⟨0, 10, 300, 310, "h2"⟩

/-- Example data token vertically aligned with `exH1`. -/
def exTok : Word := ⟨200, 220, 100, 111, "7"⟩

/-- Example column tokens for the close-column merge. -/
def exA : Word := ⟨10, 20, 0, 5, "t1"⟩

/-- Second token of the two-token column. -/
def exB : Word := ⟨10, 20, 10, 15, "t2"⟩

/-- Tokens of the five-token column. -/
def exU1 : Word := ⟨30, 40, 0, 5, "u1"⟩

/-- Second token of the five-token column. -/
def exU2 : Word := ⟨30, 40, 10, 15, "u2"⟩

/-- Third token of the five-token column. -/
def exU3 : Word := ⟨30, 40, 20, 25, "u3"⟩

/-- Fourth token of the five-token column. -/
def exU4 : Word := ⟨30, 40, 30, 35, "u4"⟩

/-- Fifth token of the five-token column. -/
def exU5 : Word := ⟨30, 40, 40, 45, "u5"⟩

/-- Example extracted table: one row, name and currency string. -/
def exF7 : Frame := ⟨2, [[.str "Wage", .str "1,234.00"]], []⟩

/-- The cleaned result of `monthly_transform` on `exF7`. -/
def exG7 : Frame := ⟨2, [[.str "Wage", .num 1234]], [1]⟩

/-- Example report pipeline whose validation always fails. -/
def exPipe : Pipeline ℕ := ⟨0, id, fun _ => false⟩

/-- C9: for every calendar month 1-12 and every calendar year, the
fiscal-calendar rule returns the calendar year itself when the month is
less than 7, and the calendar year plus 1 when the month is 7 or
greater. -/
theorem c9_fiscal_year_rule (m y : ℤ) (_h1 : 1 ≤ m) (_h2 : m ≤ 12) :
    (m < 7 → fiscal_from_calendar_year m y = y) ∧
    (7 ≤ m → fiscal_from_calendar_year m y = y + 1) := by
  constructor
  · intro hm
    simp [fiscal_from_calendar_year, hm]
  · intro hm
    simp [fiscal_from_calendar_year, not_lt.mpr hm]

/-- Witness for C9 at months 3 and 8 of calendar year 2020. -/
theorem c9_fiscal_year_rule_witness :
    (((3 : ℤ) < 7 → fiscal_from_calendar_year 3 2020 = 2020) ∧
      (7 ≤ (3 : ℤ) → fiscal_from_calendar_year 3 2020 = 2021)) ∧
    (((8 : ℤ) < 7 → fiscal_from_calendar_year 8 2020 = 2020) ∧
      (7 ≤ (8 : ℤ) → fiscal_from_calendar_year 8 2020 = 2021)) :=
  ⟨c9_fiscal_year_rule 3 2020 (by decide) (by decide),
   c9_fiscal_year_rule 8 2020 (by decide) (by decide)⟩

/-- C8: when validation is enabled and the report's validate step fails,
the pipeline aborts with an error and the load step is not executed, so
nothing is written for the invocation. -/
theorem c8_validation_failure_suppresses_load {α : Type} (p : Pipeline α)
    (h : p.validateFn (extract_transform p) = false) :
    (extract_transform_load p true).2 = .error "validation failed" ∧
    ETLStep.load ∉ (extract_transform_load p true).1 := by
  have hrun : extract_transform_load p true =
      ([.extract, .transform, .validateData], .error "validation failed") := by
    simp [extract_transform_load, h]
  rw [hrun]
  refine ⟨rfl, ?_⟩
  show ETLStep.load ∉ [ETLStep.extract, ETLStep.transform, ETLStep.validateData]
  decide

/-- Witness for C8: a concrete pipeline whose validation fails. -/
theorem c8_validation_failure_suppresses_load_witness :
    (extract_transform_load exPipe true).2 = .error "validation failed" ∧
    ETLStep.load ∉ (extract_transform_load exPipe true).1 :=
  c8_validation_failure_suppresses_load exPipe rfl

/-- C1 counterexample: with category totals 100, 200, 50 and a reported
all-taxes total of 360, the absolute difference 10 exceeds the declared
tolerance 5, yet the city-tax validation assertion passes, because the
code compares the signed difference `sum - total < 5`. -/
theorem c1_counterexample :
    city_tax_total_check [100, 200, 50] 360 = true ∧
    ¬ (|([100, 200, 50] : List ℚ).sum - 360| ≤ 5) := by
  have hs : ([100, 200, 50] : List ℚ).sum = 350 := by norm_num
  constructor
  · rw [city_tax_total_check, hs, decide_eq_true_eq]
    norm_num
  · rw [hs]
    rw [show (350 : ℚ) - 360 = -10 by norm_num]
    rw [abs_le]
    norm_num

/-- C1 amended: the city-tax sum-to-total assertion is one-sided, it
fails exactly when the signed difference `sum - total` reaches 5 (an
under-total of any size passes), while the cash-report `compare_totals`
assertion is absolute, failing exactly when some aligned pair differs
by more than 0.401 in either direction. -/
theorem c1_amended_tolerance_semantics :
    (∀ (cats : List ℚ) (total : ℚ),
        city_tax_total_check cats total = false ↔ 5 ≤ cats.sum - total) ∧
    (∀ (xs ys : List ℚ),
        compare_totals xs ys = false ↔
          ∃ p ∈ xs.zip ys, (0.401 : ℚ) < |p.1 - p.2|) := by
  constructor
  · intro cats total
    simp [city_tax_total_check, not_lt]
  · intro xs ys
    simp [compare_totals, not_le]

/-- C2 counterexample: the token `"* Preliminary"` at bottom 800 does
not cause the token `"123"` at bottom 900 to be discarded: only the
footnote's own row is skipped, and the lower token is still part of the
data pool handed to column clustering. -/
theorem c2_counterexample :
    strStarts exStar.text "*" = true ∧ exStar.bottom ≤ exBelow.bottom ∧
    (words_to_table_words [exStar, exBelow] 5 3).2 = [exBelow] := by
  refine ⟨rfl, by decide, by decide⟩

/-- C3 counterexample: with `lower_tol = upper_tol = 10`, tokens with
keys 0 and 15 have overlapping tolerance intervals (`[-10, 10]` and
`[5, 25]`), yet no emitted group contains both: groups are formed at
token key values only, and neither 0 nor 15 lies in both intervals. -/
theorem c3_counterexample :
    (exW1.top - 10 ≤ exW0.top + 10 ∧ exW0.top - 10 ≤ exW1.top + 10) ∧
    ¬ ∃ p ∈ fuzzy_groupby [exW0, exW1] 10 10 (fun w => w.top),
        exW0 ∈ p.2 ∧ exW1 ∈ p.2 := by
  refine ⟨by decide, by decide⟩

/-- C4 counterexample: two adjacent columns at x1 = 200 and x1 = 218,
each holding one token, are within `min_col_sep = 24`; the merged
column is keyed 200 (the left key), not 218 as the claim's
right-favouring tie rule predicts. -/
theorem c4_counterexample :
    remove_close_columns [(200, [exA]), (218, [exB])] 24 =
      [(200, [exA, exB])] ∧ (200 : ℤ) ≠ 218 := by
  refine ⟨by decide, by decide⟩

/-- C10 counterexample: with two distinct headers and the same data
token appearing in two clustered columns (which overlapping fuzzy
groups can produce), the token's text lands in two grid cells of the
reconstructed table. -/
theorem c10_counterexample :
    cellWord [exH1, exH2] [exTok] 20 exH1 = some exTok ∧
    create_data_table [exH1, exH2] [[exTok], [exTok]] 20 =
      [["h1", "7", "7"], ["h2", "", ""]] := by
  refine ⟨by decide, by decide⟩

/-- C4 amended: when two adjacent column centroids are closer than
`min_col_sep`, the column with fewer tokens is merged into the column
with more tokens; when both hold equally many tokens the left
(smaller-coordinate) column survives, keyed by the left centroid. -/
theorem c4_amended_merge_rule (k1 k2 sep : ℤ) (v1 v2 : List Word)
    (h12 : k1 < k2) (hsep : k2 - k1 < sep) :
    remove_close_columns [(k1, v1), (k2, v2)] sep =
      if v1.length < v2.length then [(k2, v2 ++ v1)] else [(k1, v1 ++ v2)] := by
  have hneq : k1 ≠ k2 := ne_of_lt h12
  have hneq' : k2 ≠ k1 := (ne_of_lt h12).symm
  have hne : (k1 == k2) = false := by simp [hneq]
  have hne' : (k2 == k1) = false := by simp [hneq']
  have hsort : sortKeys [k1, k2] = [k1, k2] := by
    simp [sortKeys, insertKey, le_of_lt h12]
  have hmap : ([(k1, v1), (k2, v2)].map Prod.fst) = [k1, k2] := by simp
  rw [remove_close_columns, hmap, hsort, rccGo]
  have hget1 : alistGet [(k1, v1), (k2, v2)] k1 = some v1 := by
    simp [alistGet, List.find?]
  have hget2 : alistGet [(k1, v1), (k2, v2)] k2 = some v2 := by
    simp [alistGet, List.find?, hne]
  rw [hget1]
  simp only [if_pos hsep, hget2]
  by_cases hlen : v1.length < v2.length
  · simp only [if_pos hlen]
    have hset : alistSet [(k1, v1), (k2, v2)] k2 (v2 ++ v1) =
        [(k1, v1), (k2, v2 ++ v1)] := by
      simp [alistSet, hne, hneq]
    have herase : alistErase [(k1, v1), (k2, v2 ++ v1)] k1 =
        [(k2, v2 ++ v1)] := by
      simp [alistErase, hne', hneq']
    rw [hset, herase, rccGo]
    intro l1 l2 rest h
    simp at h
  · simp only [if_neg hlen]
    have hset : alistSet [(k1, v1), (k2, v2)] k1 (v1 ++ v2) =
        [(k1, v1 ++ v2), (k2, v2)] := by
      simp [alistSet, hne', hneq']
    have herase : alistErase [(k1, v1 ++ v2), (k2, v2)] k2 =
        [(k1, v1 ++ v2)] := by
      simp [alistErase, hne, hneq]
    rw [hset, herase, rccGo]
    intro l1 l2 rest h
    simp at h

/-- Witness for C4 amended: the spec's example, columns at 200 with two
tokens and 218 with five tokens, merges into a single column keyed 218
holding all seven tokens. -/
theorem c4_amended_merge_rule_witness :
    remove_close_columns [(200, [exA, exB]), (218, [exU1, exU2, exU3, exU4, exU5])] 24 =
      if [exA, exB].length < [exU1, exU2, exU3, exU4, exU5].length then
        [(218, [exU1, exU2, exU3, exU4, exU5] ++ [exA, exB])]
      else
        [(200, [exA, exB] ++ [exU1, exU2, exU3, exU4, exU5])] :=
  c4_amended_merge_rule 200 218 24 [exA, exB] [exU1, exU2, exU3, exU4, exU5]
    (by decide) (by decide)

/-- C2 amended: the footnote handling is row-local.  The header and
data-pool outputs of the splitting loop are exactly the concatenations
of the per-row contributions of the phrase-merged rows, where a row
whose first merged token starts with `*` contributes nothing and every
other row contributes regardless of its vertical position. -/
theorem c2_amended_row_local_footnotes (ttx : ℤ) (rows : List (List Word)) :
    (collectRows ttx rows).1 =
      ((rows.map (mergePhrases ttx)).map rowHeaderContribution).flatten ∧
    (collectRows ttx rows).2 =
      ((rows.map (mergePhrases ttx)).map rowWordContribution).flatten := by
  have h : ∀ (rs : List (List Word)) (acc : List Word × List Word),
      rs.foldl (fun acc row =>
        let m := mergePhrases ttx row
        (acc.1 ++ rowHeaderContribution m, acc.2 ++ rowWordContribution m)) acc =
      (acc.1 ++ ((rs.map (mergePhrases ttx)).map rowHeaderContribution).flatten,
       acc.2 ++ ((rs.map (mergePhrases ttx)).map rowWordContribution).flatten) := by
    intro rs
    induction rs with
    | nil => intro acc; simp
    | cons r rest ih =>
      intro acc
      simp only [List.foldl_cons, ih, List.map_cons, List.flatten_cons,
        List.append_assoc]
  have h0 := h rows ([], [])
  rw [collectRows, h0]
  simp

/-- Membership in an insertion step of the stable sort. -/
theorem mem_insertLe {d : Word → ℤ} {w x : Word} {l : List Word} :
    x ∈ insertLe d w l ↔ x = w ∨ x ∈ l := by
  induction l with
  | nil => simp [insertLe]
  | cons a as ih =>
    rw [insertLe]
    split
    · simp [List.mem_cons]
    · simp only [List.mem_cons, ih]
      tauto

/-- The stable sort does not change membership. -/
theorem mem_sortStableBy {d : Word → ℤ} {x : Word} {l : List Word} :
    x ∈ sortStableBy d l ↔ x ∈ l := by
  induction l with
  | nil => simp [sortStableBy]
  | cons a as ih =>
    rw [sortStableBy, List.foldr_cons]
    rw [sortStableBy] at ih
    rw [mem_insertLe]
    simp only [List.mem_cons, ih]

/-- The closest-header search returns `none` exactly on an empty header
list. -/
theorem closestHeader_eq_none {w : Word} {hs : List Word} :
    closestHeader w hs = none ↔ hs = [] := by
  cases hs with
  | nil => simp [closestHeader]
  | cons a as => simp [closestHeader]

/-- The closest-header search returns the first header attaining the
minimal distance `|header.top - word.top|`: the result is a minimizer,
and every earlier header is strictly farther away. -/
theorem closestHeader_first_min {w : Word} {hs : List Word} {h : Word}
    (hch : closestHeader w hs = some h) :
    ∃ i, ∃ hi : i < hs.length, hs.get ⟨i, hi⟩ = h ∧
      (∀ j (hj : j < hs.length),
        |h.top - w.top| ≤ |(hs.get ⟨j, hj⟩).top - w.top|) ∧
      (∀ j (hj : j < i),
        |h.top - w.top| < |(hs.get ⟨j, Nat.lt_trans hj hi⟩).top - w.top|) := by
  induction hs generalizing h with
  | nil => simp [closestHeader] at hch
  | cons a as ih =>
    cases hca : closestHeader w as with
    | none =>
      rw [closestHeader, hca, pickCloser] at hch
      have has : as = [] := closestHeader_eq_none.mp hca
      subst has
      obtain rfl : a = h := Option.some.inj hch
      refine ⟨0, by simp, by simp, ?_, ?_⟩
      · intro j hj
        have hj0 : j = 0 := by simpa using hj
        subst hj0
        simp
      · intro j hj
        exact absurd hj (Nat.not_lt_zero j)
    | some h2 =>
      rw [closestHeader, hca, pickCloser] at hch
      obtain ⟨i2, hi2, hget2, hmin2, hstrict2⟩ := ih hca
      by_cases hlt : |h2.top - w.top| < |a.top - w.top|
      · rw [if_pos hlt] at hch
        obtain rfl : h2 = h := Option.some.inj hch
        refine ⟨i2 + 1, by simpa using hi2, by simpa using hget2, ?_, ?_⟩
        · intro j hj
          cases j with
          | zero => simpa using le_of_lt hlt
          | succ j' =>
            have hj' : j' < as.length := by simpa using hj
            simpa using hmin2 j' hj'
        · intro j hj
          cases j with
          | zero => simpa using hlt
          | succ j' =>
            have hj' : j' < i2 := by omega
            simpa using hstrict2 j' hj'
      · rw [if_neg hlt] at hch
        obtain rfl : a = h := Option.some.inj hch
        refine ⟨0, by simp, by simp, ?_, ?_⟩
        · intro j hj
          cases j with
          | zero => simp
          | succ j' =>
            have hle : |a.top - w.top| ≤ |h2.top - w.top| := not_lt.mp hlt
            have hj' : j' < as.length := by simpa using hj
            simpa using le_trans hle (hmin2 j' hj')
        · intro j hj
          exact absurd hj (Nat.not_lt_zero j)

/-- What a successful cell match in `create_data_table` guarantees: the
matched word belongs to the column, lies within the tolerance of the
row header, and the row header is the word's closest header. -/
theorem cellWord_mem_and_close {headers col : List Word} {tol : ℤ}
    {h w : Word} (hcw : cellWord headers col tol h = some w) :
    w ∈ col ∧ |w.top - h.top| ≤ tol ∧ closestHeader w headers = some h := by
  have hp := List.find?_some hcw
  have hm := List.mem_of_find?_eq_some hcw
  rw [candSorted] at hm
  have hm2 := mem_sortStableBy.mp hm
  have hm3 := List.mem_filter.mp hm2
  refine ⟨hm3.1, ?_, ?_⟩
  · exact of_decide_eq_true hm3.2
  · exact eq_of_beq hp

/-- C5: a token's text is assigned to the cell of row header `h` only
if the token lies within the row-header tolerance of `h` and `h` is the
token's nearest header among all headers; the nearest header is the
first minimizer of `|header.top - token.top|`, so equidistant headers
resolve to the smaller (topmost) index. -/
theorem c5_cell_assignment (headers col : List Word) (tol : ℤ) (h w : Word)
    (hcw : cellWord headers col tol h = some w) :
    cellText headers col tol h = w.text ∧
    w ∈ col ∧ |w.top - h.top| ≤ tol ∧ closestHeader w headers = some h ∧
    ∃ i, ∃ hi : i < headers.length, headers.get ⟨i, hi⟩ = h ∧
      (∀ j (hj : j < headers.length),
        |h.top - w.top| ≤ |(headers.get ⟨j, hj⟩).top - w.top|) ∧
      (∀ j (hj : j < i),
        |h.top - w.top| < |(headers.get ⟨j, Nat.lt_trans hj hi⟩).top - w.top|) := by
  obtain ⟨hmem, hclose, hch⟩ := cellWord_mem_and_close hcw
  refine ⟨?_, hmem, hclose, hch, closestHeader_first_min hch⟩
  rw [cellText, hcw]

/-- Witness for C5: a concrete header pair and data token where the
cell of the top header is assigned the token's text. -/
theorem c5_cell_assignment_witness :
    cellText [exH1, exH2] [exTok] 20 exH1 = exTok.text ∧
    exTok ∈ [exTok] ∧ |exTok.top - exH1.top| ≤ 20 ∧
    closestHeader exTok [exH1, exH2] = some exH1 ∧
    ∃ i, ∃ hi : i < ([exH1, exH2] : List Word).length,
      ([exH1, exH2] : List Word).get ⟨i, hi⟩ = exH1 ∧
      (∀ j (hj : j < ([exH1, exH2] : List Word).length),
        |exH1.top - exTok.top| ≤
          |(([exH1, exH2] : List Word).get ⟨j, hj⟩).top - exTok.top|) ∧
      (∀ j (hj : j < i),
        |exH1.top - exTok.top| <
          |(([exH1, exH2] : List Word).get ⟨j, Nat.lt_trans hj hi⟩).top - exTok.top|) :=
  c5_cell_assignment [exH1, exH2] [exTok] 20 exH1 exTok (by decide)

/-- C10 amended: within a single column, when the row headers are
pairwise distinct, a data token is matched by the mutual-nearest check
to at most one header row, so its text is written to at most one cell
of that column. -/
theorem c10_amended_unique_row (headers col : List Word) (tol : ℤ) (w : Word)
    (r1 r2 : ℕ) (hr1 : r1 < headers.length) (hr2 : r2 < headers.length)
    (hnd : headers.Nodup)
    (e1 : cellWord headers col tol (headers.get ⟨r1, hr1⟩) = some w)
    (e2 : cellWord headers col tol (headers.get ⟨r2, hr2⟩) = some w) :
    r1 = r2 := by
  have h1 := (cellWord_mem_and_close e1).2.2
  have h2 := (cellWord_mem_and_close e2).2.2
  rw [h1] at h2
  have hget : headers.get ⟨r1, hr1⟩ = headers.get ⟨r2, hr2⟩ :=
    Option.some.inj h2
  have hfin := (hnd.get_inj_iff).mp hget
  exact congrArg Fin.val hfin

/-- Witness for C10 amended: the concrete instance with distinct
headers, matching at row 0 twice. -/
theorem c10_amended_unique_row_witness : (0 : ℕ) = 0 :=
  c10_amended_unique_row [exH1, exH2] [exTok] 20 exTok 0 0 (by decide)
    (by decide) (by decide) (by decide) (by decide)

/-- Membership in a key-insertion step. -/
theorem mem_insertKey {q x : ℤ} {l : List ℤ} :
    x ∈ insertKey q l ↔ x = q ∨ x ∈ l := by
  induction l with
  | nil => simp [insertKey]
  | cons a as ih =>
    rw [insertKey]
    split
    · simp [List.mem_cons]
    · simp only [List.mem_cons, ih]
      tauto

/-- The key sort does not change membership. -/
theorem mem_sortKeys {x : ℤ} {l : List ℤ} :
    x ∈ sortKeys l ↔ x ∈ l := by
  induction l with
  | nil => simp [sortKeys]
  | cons a as ih =>
    rw [sortKeys, List.foldr_cons]
    rw [sortKeys] at ih
    rw [mem_insertKey]
    simp only [List.mem_cons, ih]

/-- The query points of the grouping loop are exactly the key values of
the input words. -/
theorem mem_uniqueSortedKeys {keyf : Word → ℤ} {ws : List Word} {v : ℤ} :
    v ∈ uniqueSortedKeys keyf ws ↔ ∃ u ∈ ws, keyf u = v := by
  rw [uniqueSortedKeys, mem_sortKeys, List.mem_dedup, List.mem_map]

/-- Membership in the group formed at a query point. -/
theorem mem_groupAt {keyf : Word → ℤ} {ws : List Word} {lt ut v : ℤ}
    {x : Word} :
    x ∈ groupAt keyf ws lt ut v ↔
      x ∈ ws ∧ keyf x - lt ≤ v ∧ v < keyf x + ut := by
  rw [groupAt, mem_sortStableBy, List.mem_filter]
  simp

/-- The grouping loop only grows its accumulator. -/
theorem fgStep_mono {ws : List Word} {lt ut : ℤ} {keyf : Word → ℤ} :
    ∀ {keys : List ℤ} {acc : List (ℤ × List Word)} {q : ℤ × List Word},
      q ∈ acc → q ∈ keys.foldl (fgStep ws lt ut keyf) acc := by
  intro keys
  induction keys with
  | nil => intro acc q hq; simpa using hq
  | cons v rest ih =>
    intro acc q hq
    rw [List.foldl_cons]
    apply ih
    rw [fgStep]
    split
    · exact hq
    · exact List.mem_append_left _ hq

/-- Every entry of the grouping loop's result is the group formed at
one of the processed query points. -/
theorem fuzzy_groupby_mem_shape {ws : List Word} {lt ut : ℤ}
    {keyf : Word → ℤ} :
    ∀ {keys : List ℤ} {acc : List (ℤ × List Word)} {p : ℤ × List Word},
      p ∈ keys.foldl (fgStep ws lt ut keyf) acc →
      p ∈ acc ∨ ∃ v ∈ keys, p = (v, groupAt keyf ws lt ut v) := by
  intro keys
  induction keys with
  | nil => intro acc p hp; exact Or.inl (by simpa using hp)
  | cons v rest ih =>
    intro acc p hp
    rw [List.foldl_cons] at hp
    rcases ih hp with hacc | ⟨v', hv', rfl⟩
    · rw [fgStep] at hacc
      split at hacc
      · exact Or.inl hacc
      · rcases List.mem_append.mp hacc with h | h
        · exact Or.inl h
        · refine Or.inr ⟨v, List.mem_cons_self v rest, ?_⟩
          simpa using h
    · exact Or.inr ⟨v', List.mem_cons_of_mem v hv', rfl⟩

/-- For every processed query point, some emitted entry carries exactly
the group formed at that point (the de-duplication only skips a group
when an equal word list was already emitted). -/
theorem fuzzy_groupby_covers {ws : List Word} {lt ut : ℤ}
    {keyf : Word → ℤ} :
    ∀ {keys : List ℤ} {acc : List (ℤ × List Word)} {v : ℤ}, v ∈ keys →
      ∃ p ∈ keys.foldl (fgStep ws lt ut keyf) acc,
        p.2 = groupAt keyf ws lt ut v := by
  intro keys
  induction keys with
  | nil => intro acc v hv; simp at hv
  | cons v' rest ih =>
    intro acc v hv
    rw [List.foldl_cons]
    rcases List.mem_cons.mp hv with rfl | hv'
    · cases hany : (acc.any (fun p => p.2 == groupAt keyf ws lt ut v)) with
      | true =>
        obtain ⟨q, hq, hqg⟩ := List.any_eq_true.mp hany
        refine ⟨q, ?_, eq_of_beq hqg⟩
        apply fgStep_mono
        simp only [fgStep, hany, if_true]
        exact hq
      | false =>
        refine ⟨(v, groupAt keyf ws lt ut v), ?_, rfl⟩
        apply fgStep_mono
        simp [fgStep, hany]
    · exact ih hv'

/-- C3 amended: two input tokens end up together in some emitted group
iff some input token's key value lies in both of their half-open
tolerance intervals `[key - lower_tol, key + upper_tol)`; interval
overlap alone is not sufficient, because groups are only formed at the
key values of input tokens. -/
theorem c3_amended_same_group_iff (ws : List Word) (lt ut : ℤ)
    (keyf : Word → ℤ) (w1 w2 : Word) (h1 : w1 ∈ ws) (h2 : w2 ∈ ws) :
    (∃ p ∈ fuzzy_groupby ws lt ut keyf, w1 ∈ p.2 ∧ w2 ∈ p.2) ↔
    (∃ u ∈ ws, (keyf w1 - lt ≤ keyf u ∧ keyf u < keyf w1 + ut) ∧
               (keyf w2 - lt ≤ keyf u ∧ keyf u < keyf w2 + ut)) := by
  constructor
  · rintro ⟨p, hp, hw1, hw2⟩
    rw [fuzzy_groupby] at hp
    rcases fuzzy_groupby_mem_shape hp with hacc | ⟨v, hv, rfl⟩
    · simp at hacc
    · obtain ⟨u, hu, rfl⟩ := mem_uniqueSortedKeys.mp hv
      have g1 := mem_groupAt.mp hw1
      have g2 := mem_groupAt.mp hw2
      exact ⟨u, hu, ⟨g1.2.1, g1.2.2⟩, ⟨g2.2.1, g2.2.2⟩⟩
  · rintro ⟨u, hu, hI1, hI2⟩
    have hv : keyf u ∈ uniqueSortedKeys keyf ws :=
      mem_uniqueSortedKeys.mpr ⟨u, hu, rfl⟩
    obtain ⟨p, hp, hpg⟩ :=
      @fuzzy_groupby_covers ws lt ut keyf (uniqueSortedKeys keyf ws) [] (keyf u) hv
    refine ⟨p, by rwa [fuzzy_groupby], ?_, ?_⟩
    · rw [hpg]
      exact mem_groupAt.mpr ⟨h1, hI1.1, hI1.2⟩
    · rw [hpg]
      exact mem_groupAt.mpr ⟨h2, hI2.1, hI2.2⟩

/-- Witness for C3 amended at a concrete token list. -/
theorem c3_amended_same_group_iff_witness :
    (∃ p ∈ fuzzy_groupby [exW0, exW1] 10 10 (fun w => w.top),
        exW0 ∈ p.2 ∧ exW0 ∈ p.2) ↔
    (∃ u ∈ ([exW0, exW1] : List Word),
        (exW0.top - 10 ≤ u.top ∧ u.top < exW0.top + 10) ∧
        (exW0.top - 10 ≤ u.top ∧ u.top < exW0.top + 10)) :=
  c3_amended_same_group_iff [exW0, exW1] 10 10 (fun w => w.top) exW0 exW0
    (by decide) (by decide)

/-- Sequencing a successful pass. -/
theorem exBind_ok {a : Frame} {f : Frame → Except String Frame} :
    exBind (.ok a) f = f a := rfl

/-- Sequencing after an exception. -/
theorem exBind_error {e : String} {f : Frame → Except String Frame} :
    exBind (.error e) f = .error e := rfl

/-- A `.str` pass over the data columns succeeds on a frame whose
columns are all of object dtype, preserving the column count and
dtypes. -/
theorem strAccessorDataCols_ok (g : String → String) (f : Frame)
    (h0 : f.numericCols = []) :
    ∃ gf, strAccessorDataCols g f = .ok gf ∧ gf.ncols = f.ncols ∧
      gf.numericCols = f.numericCols := by
  rw [strAccessorDataCols]
  have hany : ((dataCols f).any (fun j => f.numericCols.contains j)) = false := by
    rw [h0]
    simp
  rw [hany]
  exact ⟨_, rfl, rfl, rfl⟩

/-- Pass `remove_footnotes` succeeds when no column is numeric and column 0
holds only strings, preserving the column count and dtypes. -/
theorem remove_footnotes_ok (f : Frame) (h0 : f.numericCols = [])
    (hs : ∀ r ∈ f.rows, isStrCell (r.getD 0 .nan) = true) :
    ∃ gf, remove_footnotes f = .ok gf ∧ gf.ncols = f.ncols ∧
      gf.numericCols = f.numericCols := by
  rw [remove_footnotes]
  have hc : (f.numericCols.contains 0) = false := by rw [h0]; rfl
  rw [hc]
  have hany : (f.rows.any fun r => ¬isStrCell (r.getD 0 Cell.nan)) = false := by
    rw [List.any_eq_false]
    intro r hr
    simpa using hs r hr
  rw [hany]
  exact ⟨_, rfl, rfl, rfl⟩

/-- Splitting `remove_footnotes` into its failure and success cases when
column 0 is not numeric. -/
theorem remove_footnotes_cases (f : Frame)
    (h0 : f.numericCols.contains 0 = false) :
    (∃ e, remove_footnotes f = .error e) ∨
    (∃ rows2, remove_footnotes f = .ok ⟨f.ncols, rows2, f.numericCols⟩) := by
  rw [remove_footnotes, h0]
  simp only [Bool.false_eq_true, if_false]
  split
  · exact Or.inl ⟨_, rfl⟩
  · exact Or.inr ⟨_, rfl⟩

/-- Pass `fix_duplicated_chars` succeeds when column 1 is not numeric,
preserving column count and dtypes. -/
theorem fix_duplicated_chars_ok (f : Frame)
    (h1 : f.numericCols.contains 1 = false) :
    ∃ gf, fix_duplicated_chars f = .ok gf ∧ gf.ncols = f.ncols ∧
      gf.numericCols = f.numericCols := by
  rw [fix_duplicated_chars, h1]
  exact ⟨_, rfl, rfl, rfl⟩

/-- Pass `fix_duplicated_chars` raises on a frame whose column 1 has been
coerced to numeric dtype. -/
theorem fix_duplicated_chars_err (f : Frame)
    (h1 : f.numericCols.contains 1 = true) :
    fix_duplicated_chars f = .error "str accessor on numeric column" := by
  rw [fix_duplicated_chars, h1]
  rfl

/-- Pass `remove_spaces` succeeds when no column is numeric. -/
theorem remove_spaces_ok (f : Frame) (h0 : f.numericCols = []) :
    ∃ gf, remove_spaces f = .ok gf ∧ gf.ncols = f.ncols ∧
      gf.numericCols = f.numericCols :=
  strAccessorDataCols_ok _ f h0

/-- Pass `fix_duplicate_parens` succeeds when no column is numeric. -/
theorem fix_duplicate_parens_ok (f : Frame) (h0 : f.numericCols = []) :
    ∃ gf, fix_duplicate_parens f = .ok gf ∧ gf.ncols = f.ncols ∧
      gf.numericCols = f.numericCols :=
  strAccessorDataCols_ok _ f h0

/-- Pass `fix_percentages` succeeds when no column is numeric. -/
theorem fix_percentages_ok (f : Frame) (h0 : f.numericCols = []) :
    ∃ gf, fix_percentages f = .ok gf ∧ gf.ncols = f.ncols ∧
      gf.numericCols = f.numericCols :=
  strAccessorDataCols_ok _ f h0

/-- Pass `remove_extra_letters` succeeds when column 1 is not numeric. -/
theorem remove_extra_letters_ok (f : Frame)
    (h1 : f.numericCols.contains 1 = false) :
    ∃ gf, remove_extra_letters f = .ok gf ∧ gf.ncols = f.ncols ∧
      gf.numericCols = f.numericCols := by
  rw [remove_extra_letters, h1]
  exact ⟨_, rfl, rfl, rfl⟩

/-- Pass `replace_missing_cells` always succeeds, preserving column count and
dtypes. -/
theorem replace_missing_cells_ok (f : Frame) :
    ∃ gf, replace_missing_cells f = .ok gf ∧ gf.ncols = f.ncols ∧
      gf.numericCols = f.numericCols :=
  ⟨_, rfl, rfl, rfl⟩

/-- Pass `convert_to_floats` always succeeds and marks the data columns
numeric. -/
theorem convert_to_floats_ok (f : Frame) :
    ∃ gf, convert_to_floats f = .ok gf ∧ gf.ncols = f.ncols ∧
      gf.numericCols = f.numericCols ++ dataCols f :=
  ⟨_, rfl, rfl, rfl⟩

/-- Pass `remove_missing_rows` always succeeds, preserving column count and
dtypes. -/
theorem remove_missing_rows_ok (f : Frame) :
    ∃ gf, remove_missing_rows f = .ok gf ∧ gf.ncols = f.ncols ∧
      gf.numericCols = f.numericCols :=
  ⟨_, rfl, rfl, rfl⟩

/-- On a wellformed extracted table the full cleaner pipeline succeeds,
and the resulting frame has the same column count with every data
column marked numeric. -/
theorem monthly_transform_ok_of_wf (f : Frame) (hwf : wfFrame f = true) :
    ∃ g, monthly_transform f = .ok g ∧ g.ncols = f.ncols ∧
      g.numericCols = dataCols f := by
  rw [wfFrame, Bool.and_eq_true, Bool.and_eq_true] at hwf
  obtain ⟨⟨hn2, h0⟩, hrows⟩ := hwf
  have h0' : f.numericCols = [] := of_decide_eq_true h0
  have hn2' : 2 ≤ f.ncols := of_decide_eq_true hn2
  have hs : ∀ r ∈ f.rows, isStrCell (r.getD 0 .nan) = true := by
    intro r hr
    have hrA := List.all_eq_true.mp hrows r hr
    rw [Bool.and_eq_true] at hrA
    obtain ⟨hlen, hstr⟩ := hrA
    have hlen' : r.length = f.ncols := of_decide_eq_true hlen
    cases r with
    | nil =>
      exfalso
      rw [List.length_nil] at hlen'
      omega
    | cons a as =>
      have := List.all_eq_true.mp hstr a (List.mem_cons_self a as)
      simpa using this
  obtain ⟨g1, e1, n1, c1⟩ := remove_footnotes_ok f h0' hs
  obtain ⟨g2, e2, n2, c2⟩ := fix_duplicated_chars_ok g1
    (by rw [c1, h0']; rfl)
  obtain ⟨g3, e3, n3, c3⟩ := remove_spaces_ok g2 (by rw [c2, c1, h0'])
  obtain ⟨g4, e4, n4, c4⟩ := fix_duplicate_parens_ok g3
    (by rw [c3, c2, c1, h0'])
  obtain ⟨g5, e5, n5, c5⟩ := fix_percentages_ok g4
    (by rw [c4, c3, c2, c1, h0'])
  obtain ⟨g6, e6, n6, c6⟩ := replace_missing_cells_ok g5
  obtain ⟨g7, e7, n7, c7⟩ := remove_extra_letters_ok g6
    (by rw [c6, c5, c4, c3, c2, c1, h0']; rfl)
  obtain ⟨g8, e8, n8, c8⟩ := convert_to_floats_ok g7
  obtain ⟨g9, e9, n9, c9⟩ := remove_missing_rows_ok g8
  refine ⟨g9, ?_, ?_, ?_⟩
  · rw [monthly_transform, e1, exBind_ok, e2, exBind_ok, e3, exBind_ok,
      e4, exBind_ok, e5, exBind_ok, e6, exBind_ok, e7, exBind_ok,
      e8, exBind_ok, e9]
  · rw [n9, n8, n7, n6, n5, n4, n3, n2, n1]
  · have hd8 : dataCols g7 = dataCols f := by
      rw [dataCols, dataCols, n7, n6, n5, n4, n3, n2, n1]
    rw [c9, c8, hd8, c7, c6, c5, c4, c3, c2, c1, h0']
    rfl

/-- On any frame whose column 1 is numeric and column 0 is not, the
cleaner pipeline raises: either the footnote mask fails on non-string
cells, or the duplicated-character pass's string accessor raises. -/
theorem monthly_transform_err_of_numeric (g : Frame)
    (h1 : g.numericCols.contains 1 = true)
    (h0 : g.numericCols.contains 0 = false) :
    ∃ e, monthly_transform g = .error e := by
  rcases remove_footnotes_cases g h0 with ⟨e, he⟩ | ⟨rows2, he⟩
  · exact ⟨e, by rw [monthly_transform, he]; rfl⟩
  · refine ⟨"str accessor on numeric column", ?_⟩
    rw [monthly_transform, he, exBind_ok,
      fix_duplicated_chars_err ⟨g.ncols, rows2, g.numericCols⟩ h1]
    rfl

/-- C7 counterexample: on the one-row table `[["Wage", "1,234.00"]]` the
cleaner pipeline succeeds once, but applying the composition a second
time raises a string-accessor error on the now-numeric data column, so
twice is not the same as once. -/
theorem c7_counterexample :
    exBind (monthly_transform exF7) monthly_transform ≠
      monthly_transform exF7 := by
  obtain ⟨g, hg, _, hgc⟩ := monthly_transform_ok_of_wf exF7 (by decide)
  have h1 : g.numericCols.contains 1 = true := by
    rw [hgc]
    decide
  have h0 : g.numericCols.contains 0 = false := by
    rw [hgc]
    decide
  obtain ⟨e, he⟩ := monthly_transform_err_of_numeric g h1 h0
  intro hcontra
  rw [hg, exBind_ok, he] at hcontra
  exact Except.noConfusion hcontra

/-- C7 amended: the cleaner pipeline composition is not idempotent on
any wellformed extracted table: the first application succeeds, but the
second application always raises (numeric coercion has made the data
columns numeric, so the string accessor of the duplicated-character
pass fails, or the footnote mask fails on NaN cells), hence applying
the composition twice never equals applying it once. -/
theorem c7_amended_not_idempotent (f : Frame) (hwf : wfFrame f = true) :
    (∃ g, monthly_transform f = .ok g) ∧
    (∃ e, exBind (monthly_transform f) monthly_transform = .error e) ∧
    exBind (monthly_transform f) monthly_transform ≠ monthly_transform f := by
  obtain ⟨g, hg, hgn, hgc⟩ := monthly_transform_ok_of_wf f hwf
  have hn2 : 2 ≤ f.ncols := by
    rw [wfFrame, Bool.and_eq_true, Bool.and_eq_true] at hwf
    exact of_decide_eq_true hwf.1.1
  have h1 : g.numericCols.contains 1 = true := by
    rw [hgc, dataCols]
    apply List.elem_eq_true_of_mem
    rw [List.mem_range'_1]
    omega
  have h0 : g.numericCols.contains 0 = false := by
    rw [hgc, dataCols]
    rw [← Bool.not_eq_true]
    intro hmem
    have := (List.mem_range'_1).mp (List.mem_of_elem_eq_true hmem)
    omega
  obtain ⟨e, he⟩ := monthly_transform_err_of_numeric g h1 h0
  refine ⟨⟨g, hg⟩, ⟨e, by rw [hg, exBind_ok, he]⟩, ?_⟩
  intro hcontra
  rw [hg, exBind_ok, he] at hcontra
  exact Except.noConfusion hcontra

/-- Witness for C7 amended at the concrete table `exF7`. -/
theorem c7_amended_not_idempotent_witness :
    (∃ g, monthly_transform exF7 = .ok g) ∧
    (∃ e, exBind (monthly_transform exF7) monthly_transform = .error e) ∧
    exBind (monthly_transform exF7) monthly_transform ≠
      monthly_transform exF7 :=
  c7_amended_not_idempotent exF7 (by decide)

/-- Facts about decimal digit characters. -/
theorem digitChar_spec (d : ℕ) (h : d < 10) :
    (digitChar d).isDigit = true ∧ (digitChar d).toNat = 48 + d ∧
    digitChar d ≠ dotChar ∧ digitChar d ≠ commaChar ∧
    digitChar d ≠ dollarChar ∧ digitChar d ≠ rparenChar ∧
    digitChar d ≠ lparenChar ∧ digitChar d ≠ minusChar := by
  interval_cases d <;> decide

/-- Every character produced by the digit expansion is a digit
character. -/
theorem natToDigitsRev_digits (n : ℕ) :
    ∀ c ∈ natToDigitsRev n, ∃ d, d < 10 ∧ c = digitChar d := by
  induction n using Nat.strong_induction_on with
  | _ n ih =>
    rw [natToDigitsRev]
    split
    · intro c hc
      rw [List.mem_singleton] at hc
      exact ⟨n, by omega, hc⟩
    · intro c hc
      rcases List.mem_cons.mp hc with rfl | hmem
      · exact ⟨n % 10, Nat.mod_lt _ (by norm_num), rfl⟩
      · exact ih (n / 10) (Nat.div_lt_self (by omega) (by norm_num)) c hmem

/-- Digit membership for the forward digit list. -/
theorem natToDigits_digits (n : ℕ) :
    ∀ c ∈ natToDigits n, ∃ d, d < 10 ∧ c = digitChar d := by
  intro c hc
  rw [natToDigits, List.mem_reverse] at hc
  exact natToDigitsRev_digits n c hc

/-- Digit membership for the zero-padded fractional digit list. -/
theorem padZeros_digits (k m : ℕ) :
    ∀ c ∈ padZeros k (natToDigits m), ∃ d, d < 10 ∧ c = digitChar d := by
  intro c hc
  rw [padZeros, List.mem_append] at hc
  rcases hc with hc | hc
  · rw [List.mem_replicate] at hc
    exact ⟨0, by norm_num, hc.2⟩
  · exact natToDigits_digits m c hc

/-- The digit expansion is never empty. -/
theorem natToDigits_ne_nil (n : ℕ) : natToDigits n ≠ [] := by
  rw [natToDigits]
  rw [natToDigitsRev]
  split
  · simp
  · simp

/-- Reading one more digit on the right. -/
theorem digitsToNat_append_singleton (xs : List Char) (c : Char) :
    digitsToNat (xs ++ [c]) = 10 * digitsToNat xs + (c.toNat - 48) := by
  rw [digitsToNat, List.foldl_append]
  rfl

/-- The digit expansion reads back to the number it came from. -/
theorem digitsToNat_rev (n : ℕ) :
    digitsToNat (natToDigitsRev n).reverse = n := by
  induction n using Nat.strong_induction_on with
  | _ n ih =>
    rw [natToDigitsRev]
    split
    · rename_i h
      have ht := (digitChar_spec n (by omega)).2.1
      simp only [List.reverse_singleton, digitsToNat, List.foldl_cons,
        List.foldl_nil, ht]
      omega
    · rename_i h
      rw [List.reverse_cons, digitsToNat_append_singleton]
      rw [ih (n / 10) (Nat.div_lt_self (by omega) (by norm_num))]
      rw [(digitChar_spec (n % 10) (Nat.mod_lt _ (by norm_num))).2.1]
      omega

/-- Round trip of the forward digit expansion. -/
theorem digitsToNat_natToDigits (n : ℕ) :
    digitsToNat (natToDigits n) = n := by
  rw [natToDigits]
  exact digitsToNat_rev n

/-- Leading zeros do not change the value read. -/
theorem digitsToNat_replicate_zero (j : ℕ) (cs : List Char) :
    digitsToNat (List.replicate j (digitChar 0) ++ cs) = digitsToNat cs := by
  induction j with
  | zero => simp
  | succ j ih =>
    rw [List.replicate_succ, List.cons_append]
    rw [digitsToNat, List.foldl_cons]
    have h0 : 10 * 0 + ((digitChar 0).toNat - 48) = 0 := by decide
    rw [h0]
    exact ih

/-- Zero padding does not change the value read. -/
theorem digitsToNat_padZeros (k : ℕ) (cs : List Char) :
    digitsToNat (padZeros k cs) = digitsToNat cs := by
  rw [padZeros]
  exact digitsToNat_replicate_zero _ _

/-- The digit expansion of a number below `10 ^ k` has at most `k`
digits (for `k ≥ 1`). -/
theorem natToDigitsRev_length_le (n : ℕ) :
    ∀ k : ℕ, 1 ≤ k → n < 10 ^ k → (natToDigitsRev n).length ≤ k := by
  induction n using Nat.strong_induction_on with
  | _ n ih =>
    intro k hk hn
    rw [natToDigitsRev]
    split
    · simpa using hk
    · rename_i h
      rw [List.length_cons]
      have hk2 : 2 ≤ k := by
        by_contra hlt
        have hk1 : k = 1 := by omega
        subst hk1
        simp at hn
        omega
      have hdiv : n / 10 < 10 ^ (k - 1) := by
        rw [Nat.div_lt_iff_lt_mul (by norm_num)]
        calc n < 10 ^ k := hn
          _ = 10 ^ (k - 1) * 10 := by
              rw [← pow_succ]
              congr 1
              omega
      have := ih (n / 10) (Nat.div_lt_self (by omega) (by norm_num))
        (k - 1) (by omega) hdiv
      omega

/-- The padded fractional part has exactly `k` digits. -/
theorem padZeros_length (k m : ℕ) (hk : 1 ≤ k) (hm : m < 10 ^ k) :
    (padZeros k (natToDigits m)).length = k := by
  have hlen : (natToDigits m).length ≤ k := by
    rw [natToDigits, List.length_reverse]
    exact natToDigitsRev_length_le m k hk hm
  rw [padZeros, List.length_append, List.length_replicate]
  omega

/-- Filtering away the separator characters undoes the thousands
grouping (reversed-list form). -/
theorem filter_group3Rev (p : Char → Bool) (hcomma : p commaChar = false) :
    ∀ (m : ℕ) (cs : List Char), cs.length ≤ m → (∀ c ∈ cs, p c = true) →
      (group3Rev cs).filter p = cs := by
  intro m
  induction m with
  | zero =>
    intro cs hle hall
    have hnil : cs = [] := List.eq_nil_of_length_eq_zero (by omega)
    subst hnil
    rw [group3Rev]
    simp
  | succ m ih =>
    intro cs hle hall
    rw [group3Rev]
    split
    · exact List.filter_eq_self.mpr hall
    · rename_i hlen
      rw [List.filter_append, List.filter_cons, hcomma]
      simp only [Bool.false_eq_true, if_false]
      have htake : (cs.take 3).filter p = cs.take 3 :=
        List.filter_eq_self.mpr (fun c hc => hall c (List.take_subset _ _ hc))
      have hdrop : (group3Rev (cs.drop 3)).filter p = cs.drop 3 := by
        refine ih (cs.drop 3) ?_ (fun c hc => hall c (List.drop_subset _ _ hc))
        rw [List.length_drop]
        omega
      rw [htake, hdrop, List.take_append_drop]

/-- Filtering away the separator characters undoes the thousands
grouping. -/
theorem filter_addCommas (p : Char → Bool) (cs : List Char)
    (hcomma : p commaChar = false) (hall : ∀ c ∈ cs, p c = true) :
    (addCommas cs).filter p = cs := by
  rw [addCommas, List.filter_reverse]
  rw [filter_group3Rev p hcomma cs.reverse.length cs.reverse le_rfl
    (fun c hc => hall c (List.mem_reverse.mp hc))]
  exact List.reverse_reverse cs

/-- Mapping the parenthesis replacement over characters containing no
opening parenthesis is the identity. -/
theorem map_parenToMinus_id (cs : List Char)
    (h : ∀ c ∈ cs, c ≠ lparenChar) :
    cs.map (fun c => if c = lparenChar then minusChar else c) = cs := by
  induction cs with
  | nil => rfl
  | cons a as ih =>
    rw [List.map_cons, if_neg (h a (List.mem_cons_self a as)),
      ih (fun c hc => h c (List.mem_cons_of_mem a hc))]

/-- Splitting a dot-free character list. -/
theorem splitDot_no_dot (a : List Char) (h : ∀ c ∈ a, c ≠ dotChar) :
    splitDot a = some (a, []) := by
  induction a with
  | nil => rfl
  | cons c cs ih =>
    rw [splitDot, if_neg (h c (List.mem_cons_self c cs)),
      ih (fun x hx => h x (List.mem_cons_of_mem c hx))]

/-- Splitting a list with exactly one dot between dot-free parts. -/
theorem splitDot_single_dot (a b : List Char)
    (ha : ∀ c ∈ a, c ≠ dotChar) (hb : ∀ c ∈ b, c ≠ dotChar) :
    splitDot (a ++ dotChar :: b) = some (a, b) := by
  induction a with
  | nil =>
    have hc : b.contains dotChar = false := by
      rw [← Bool.not_eq_true]
      intro hcon
      exact hb dotChar (List.mem_of_elem_eq_true hcon) rfl
    rw [List.nil_append, splitDot, if_pos rfl, hc]
    simp
  | cons c cs ih =>
    rw [List.cons_append, splitDot,
      if_neg (ha c (List.mem_cons_self c cs)),
      ih (fun x hx => ha x (List.mem_cons_of_mem c hx))]

/-- The currency strip predicate accepts every digit character. -/
theorem stripPred_digit (c : Char) (hc : ∃ d, d < 10 ∧ c = digitChar d) :
    (¬ (c = dollarChar ∨ c = commaChar ∨ c = rparenChar) : Bool) = true := by
  obtain ⟨d, hd, rfl⟩ := hc
  obtain ⟨_, _, _, hcm, hdl, hrp, _, _⟩ := digitChar_spec d hd
  simp [hcm, hdl, hrp]

/-- Digit characters are digits in the `Char.isDigit` sense. -/
theorem isDigit_of_spec (c : Char) (hc : ∃ d, d < 10 ∧ c = digitChar d) :
    c.isDigit = true := by
  obtain ⟨d, hd, rfl⟩ := hc
  exact (digitChar_spec d hd).1

/-- Digit characters are not the decimal point. -/
theorem ne_dot_of_spec (c : Char) (hc : ∃ d, d < 10 ∧ c = digitChar d) :
    c ≠ dotChar := by
  obtain ⟨d, hd, rfl⟩ := hc
  exact (digitChar_spec d hd).2.2.1

/-- Digit characters are not the opening parenthesis. -/
theorem ne_lparen_of_spec (c : Char) (hc : ∃ d, d < 10 ∧ c = digitChar d) :
    c ≠ lparenChar := by
  obtain ⟨d, hd, rfl⟩ := hc
  exact (digitChar_spec d hd).2.2.2.2.2.2.1

/-- Digit characters are not the minus sign. -/
theorem ne_minus_of_spec (c : Char) (hc : ∃ d, d < 10 ∧ c = digitChar d) :
    c ≠ minusChar := by
  obtain ⟨d, hd, rfl⟩ := hc
  exact (digitChar_spec d hd).2.2.2.2.2.2.2

/-- The unsigned digit body of the formatted value `n / 10 ^ k`:
integer digits, then `k` padded fractional digits when `k ≥ 1`. -/
theorem clean_currency_body (n k : ℕ) :
    ((formatCurrency n k).toList.filter
        (fun c => ¬ (c = dollarChar ∨ c = commaChar ∨ c = rparenChar))).map
      (fun c => if c = lparenChar then minusChar else c) =
    natToDigits (n / 10 ^ k) ++
      (if k = 0 then [] else dotChar :: padZeros k (natToDigits (n % 10 ^ k))) := by
  rw [formatCurrency]
  show ((dollarChar :: (addCommas (natToDigits (n / 10 ^ k)) ++ _)).filter _).map _ = _
  rw [List.filter_cons]
  have hdollar : ((¬ (dollarChar = dollarChar ∨ dollarChar = commaChar ∨
      dollarChar = rparenChar)) : Bool) = false := by decide
  rw [hdollar]
  simp only [Bool.false_eq_true, if_false]
  rw [List.filter_append]
  rw [filter_addCommas _ _ (by decide)
    (fun c hc => stripPred_digit c (natToDigits_digits _ c hc))]
  by_cases hk : k = 0
  · subst hk
    simp only [eq_self_iff_true, if_true, ite_true]
    rw [List.filter_nil, List.append_nil]
    exact map_parenToMinus_id _
      (fun c hc => ne_lparen_of_spec c (natToDigits_digits _ c hc))
  · simp only [if_neg hk]
    rw [List.filter_cons]
    have hdot : ((¬ (dotChar = dollarChar ∨ dotChar = commaChar ∨
        dotChar = rparenChar)) : Bool) = true := by decide
    rw [hdot]
    simp only [if_true]
    rw [List.filter_eq_self.mpr
      (fun c hc => stripPred_digit c (padZeros_digits k _ c hc))]
    refine map_parenToMinus_id _ ?_
    intro c hc
    rcases List.mem_append.mp hc with hc | hc
    · exact ne_lparen_of_spec c (natToDigits_digits _ c hc)
    · rcases List.mem_cons.mp hc with rfl | hc
      · decide
      · exact ne_lparen_of_spec c (padZeros_digits k _ c hc)

/-- Parsing the unsigned digit body recovers the value `n / 10 ^ k`. -/
theorem parse_currency_body (n k : ℕ) :
    parseDecimalChars (natToDigits (n / 10 ^ k) ++
        (if k = 0 then []
         else dotChar :: padZeros k (natToDigits (n % 10 ^ k)))) =
      some ((n : ℚ) / 10 ^ k) := by
  by_cases hk : k = 0
  · subst hk
    simp only [eq_self_iff_true, if_true, ite_true, List.append_nil]
    rw [parseDecimalChars,
      splitDot_no_dot _ (fun c hc => ne_dot_of_spec c (natToDigits_digits _ c hc)),
      parseParts]
    rw [List.append_nil]
    rw [if_neg (natToDigits_ne_nil _)]
    rw [List.all_eq_true.mpr
      (fun c hc => isDigit_of_spec c (natToDigits_digits _ c hc))]
    simp only [if_true]
    rw [digitsToNat_natToDigits]
    rw [show digitsToNat ([] : List Char) = 0 from rfl]
    norm_num
  · have hk1 : 1 ≤ k := by omega
    simp only [if_neg hk]
    have hfrac : n % 10 ^ k < 10 ^ k := Nat.mod_lt _ (by positivity)
    rw [parseDecimalChars,
      splitDot_single_dot _ _
        (fun c hc => ne_dot_of_spec c (natToDigits_digits _ c hc))
        (fun c hc => ne_dot_of_spec c (padZeros_digits k _ c hc)),
      parseParts]
    have hne : natToDigits (n / 10 ^ k) ++ padZeros k (natToDigits (n % 10 ^ k)) ≠ [] := by
      intro hcontra
      exact natToDigits_ne_nil (n / 10 ^ k) (List.append_eq_nil.mp hcontra).1
    rw [if_neg hne]
    have hall : (natToDigits (n / 10 ^ k) ++
        padZeros k (natToDigits (n % 10 ^ k))).all Char.isDigit = true := by
      rw [List.all_eq_true]
      intro c hc
      rcases List.mem_append.mp hc with hc | hc
      · exact isDigit_of_spec c (natToDigits_digits _ c hc)
      · exact isDigit_of_spec c (padZeros_digits k _ c hc)
    rw [hall]
    simp only [if_true]
    rw [digitsToNat_natToDigits, digitsToNat_padZeros, digitsToNat_natToDigits,
      padZeros_length k _ hk1 hfrac]
    congr 1
    have hdm : 10 ^ k * (n / 10 ^ k) + n % 10 ^ k = n := Nat.div_add_mod n (10 ^ k)
    have hq : ((10 ^ k : ℕ) : ℚ) * ((n / 10 ^ k : ℕ) : ℚ) +
        ((n % 10 ^ k : ℕ) : ℚ) = n := by
      exact_mod_cast hdm
    push_cast at hq
    have h10 : ((10 : ℚ) ^ k) ≠ 0 := by positivity
    field_simp
    linarith [hq]

/-- C6: numeric coercion round-trips currency formatting exactly: the
dollar-and-commas string for the decimal value `n / 10 ^ k` coerces
back to it, and the accounting-style parenthesised string coerces to
its negation (covering every negative decimal value). -/
theorem c6_convert_roundtrip (n k : ℕ) :
    convert_cell (formatCurrency n k) = some ((n : ℚ) / 10 ^ k) ∧
    convert_cell (formatAccounting n k) = some (-((n : ℚ) / 10 ^ k)) := by
  constructor
  · rw [convert_cell, to_numeric]
    have hclean : (parenToMinus (stripCurrencyChars (formatCurrency n k))).toList =
        natToDigits (n / 10 ^ k) ++
          (if k = 0 then []
           else dotChar :: padZeros k (natToDigits (n % 10 ^ k))) := by
      rw [parenToMinus, stripCurrencyChars]
      exact clean_currency_body n k
    rw [hclean]
    obtain ⟨c, D', hD⟩ : ∃ c D', natToDigits (n / 10 ^ k) = c :: D' := by
      cases hD : natToDigits (n / 10 ^ k) with
      | nil => exact absurd hD (natToDigits_ne_nil _)
      | cons c D' => exact ⟨c, D', rfl⟩
    rw [hD, List.cons_append, parseSigned]
    have hcdig : ∃ d, d < 10 ∧ c = digitChar d :=
      natToDigits_digits _ c (by rw [hD]; exact List.mem_cons_self c D')
    rw [if_neg (ne_minus_of_spec c hcdig)]
    rw [← List.cons_append, ← hD]
    exact parse_currency_body n k
  · rw [convert_cell, to_numeric]
    have hclean : (parenToMinus (stripCurrencyChars (formatAccounting n k))).toList =
        minusChar :: (natToDigits (n / 10 ^ k) ++
          (if k = 0 then []
           else dotChar :: padZeros k (natToDigits (n % 10 ^ k)))) := by
      rw [parenToMinus, stripCurrencyChars, formatAccounting]
      show ((lparenChar :: (addCommas (natToDigits (n / 10 ^ k)) ++
          (if k = 0 then []
           else dotChar :: padZeros k (natToDigits (n % 10 ^ k))) ++
          [rparenChar])).filter
            (fun c => ¬ (c = dollarChar ∨ c = commaChar ∨ c = rparenChar))).map
          (fun c => if c = lparenChar then minusChar else c) =
        minusChar :: (natToDigits (n / 10 ^ k) ++
          (if k = 0 then []
           else dotChar :: padZeros k (natToDigits (n % 10 ^ k))))
      rw [List.filter_cons]
      have hlp : ((¬ (lparenChar = dollarChar ∨ lparenChar = commaChar ∨
          lparenChar = rparenChar)) : Bool) = true := by decide
      rw [hlp]
      simp only [if_true]
      rw [List.map_cons]
      rw [if_pos rfl]
      congr 1
      rw [List.append_assoc, List.filter_append, List.filter_append]
      have hrp : ([rparenChar].filter
          (fun c => (¬ (c = dollarChar ∨ c = commaChar ∨ c = rparenChar) : Bool))) = [] := by
        decide
      rw [hrp, List.append_nil, ← List.filter_append]
      exact clean_currency_body n k
    rw [hclean, parseSigned, if_pos rfl]
    rw [parse_currency_body n k]
    rfl

end PBD
